import Mathlib

/-!
Shallow embedding of the retrieval pipeline of the intelligent-graph-agent
repository (TypeScript), together with proofs about the claims of its
specification.  Every definition is translated from the TypeScript source:

* `src/search/unified-search.ts`   — strategy resolution, result optimisation
  (`normalizeScore`, `optimizeResults`, `performTextSearch`, result limit);
* `src/services/vector-index/vector-search.ts` — vector search with context
  expansion (`searchSimilarVectors`, `getAdjacentChunks`, `searchWithContext`);
* the embedding manager — cache key, cache, retry (`generateCacheKey`,
  `getFromCache`, `setCache`, `embedWithRetry`, `embedQuery`, `embedDocuments`);
* the graph structure builder — `createRelationBetweenChunks` (FIRST_CHUNK and
  NEXT_CHUNK edges);
* the enhanced text chunker — `chunkSingleSegment`, `chunkText` and their
  helpers.

Modelling conventions.  JavaScript numbers used as scores are modelled by `ℚ`
(score literals such as `0.8` become `mkRat 8 10`); machine text is modelled by
`String` or `List Char`; fallible or possibly diverging loops are modelled with
explicit fuel returning `Option`/`Except`; the external Neo4j store is modelled
by explicit lists of chunk records and edge pairs, and the external similarity
primitive (`gds.similarity.cosine`) is a function parameter.  `Array.prototype.sort`
(stable) is modelled by `List.insertionSort`, which is stable.  The JavaScript
object used as the embedding cache is modelled by an association list whose
operations preserve key uniqueness, exactly as a JS object does.
-/

/-- JavaScript `Math.max` on rationals. -/
def jsMax (a b : ℚ) : ℚ := if a ≤ b then b else a

/-- JavaScript `Math.min` on rationals. -/
def jsMin (a b : ℚ) : ℚ := if a ≤ b then a else b

/-- JavaScript `String.prototype.trim` on a character list: strip whitespace
from both ends (ASCII whitespace model of the JS whitespace class). -/
def jsTrim (l : List Char) : List Char :=
  ((l.dropWhile Char.isWhitespace).reverse.dropWhile Char.isWhitespace).reverse

/-- Lower-casing used by Cypher `toLower` and JS `toLowerCase` (character-wise). -/
def lowerStr (s : String) : String := String.mk (s.data.map Char.toLower)

/-- Cypher `CONTAINS` / JS `includes`: literal (case-sensitive) substring test. -/
def strContainsB (hay pat : String) : Bool := decide (pat.data <:+: hay.data)

/-! ### Scores and normalisation (`unified-search.ts`, `normalizeScore`) -/

/-- Raw score value attached to a search result before normalisation: a JS
number, a Neo4j integer object with optional `low`/`high` components, or any
other unrecognised value. -/
inductive RawScore where
  | num (q : ℚ)
  | intObj (low high : Option ℤ)
  | other
deriving DecidableEq

/-- `UnifiedSearch.normalizeScore` (unified-search.ts lines 579-594): numbers
are clamped into `[0,1]`; objects with a `low` (else `high`) component map that
component divided by 100, clamped; anything else maps to the neutral `0.5`.
`mkRat l 100` is the exact value of the JS division `low / 100`. -/
def normalizeScore : RawScore → ℚ
  | .num q => jsMax 0 (jsMin 1 q)
  | .intObj (some l) _ => jsMax 0 (jsMin 1 (mkRat l 100))
  | .intObj none (some h) => jsMax 0 (jsMin 1 (mkRat h 100))
  | .intObj none none => mkRat 1 2
  | .other => mkRat 1 2

/-- A search result as fused by `UnifiedSearch.search` before optimisation. -/
structure USearchResult where
  content : String
  source : String
  score : RawScore
deriving DecidableEq

/-- A search result together with its normalised score, as built inside
`optimizeResults` (the spread `{...result, normalizedScore}`). -/
structure NormedResult where
  res : USearchResult
  normalizedScore : ℚ
deriving DecidableEq

/-- Deduplication key of `optimizeResults`:
`source + underscore + first 100 characters of content`. -/
def dedupKey (r : NormedResult) : String :=
  r.res.source ++ ("_") ++ String.mk (r.res.content.data.take 100)

/-- Descending order on normalised scores (the comparator
`(a, b) => b.normalizedScore - a.normalizedScore`). -/
def normGE (a b : NormedResult) : Prop := b.normalizedScore ≤ a.normalizedScore

instance : DecidableRel normGE := fun a b =>
  inferInstanceAs (Decidable (b.normalizedScore ≤ a.normalizedScore))

instance : IsTotal NormedResult normGE := ⟨fun a b => le_total b.normalizedScore a.normalizedScore⟩

instance : IsTrans NormedResult normGE := ⟨fun _ _ _ hab hbc => le_trans hbc hab⟩

/-- First-occurrence deduplication over the `seen` set of keys, mirroring the
`Set`-based loop of `optimizeResults`. -/
def dedupByKey (seen : List String) : List NormedResult → List NormedResult
  | [] => []
  | r :: rest =>
    if dedupKey r ∈ seen then dedupByKey seen rest
    else r :: dedupByKey (dedupKey r :: seen) rest

/-- Validity filter of `optimizeResults`: the content must be a non-empty
string whose trim is non-empty (JS truthiness of `result.content` is subsumed
by the trim test). -/
def validContent (r : USearchResult) : Bool := !(jsTrim r.content.data).isEmpty

/-- The normalisation / sort / dedup / quality-filter pipeline of
`optimizeResults` before the final truncation (steps 1-5, lines 511-565). -/
def preTruncation (results : List USearchResult) : List NormedResult :=
  let validResults := results.filter validContent
  let normalizedResults := validResults.map (fun r => ⟨r, normalizeScore r.score⟩)
  let sorted := normalizedResults.insertionSort normGE
  let uniqueResults := dedupByKey [] sorted
  uniqueResults.filter (fun r => mkRat 1 100 ≤ r.normalizedScore)

/-- `UnifiedSearch.optimizeResults` (lines 511-574): filter invalid results,
normalise, sort descending, deduplicate over the full candidate set, apply the
quality threshold `0.01`, and only then truncate to `limit`.  The early return
on an empty valid set yields the same value as the general path. -/
def optimizeResults (results : List USearchResult) (limit : ℕ) : List NormedResult :=
  let validResults := results.filter validContent
  if validResults.isEmpty then []
  else (preTruncation results).take limit

/-- Fallback of `Math.floor(query.limit || 10)`: an absent or zero caller limit
becomes 10. -/
def fallbackLimit : Option ℕ → ℕ
  | some l => if l = 0 then 10 else l
  | none => 10

/-- Line 179 of unified-search.ts:
`strategy.vectorSearchOptions?.topK || Math.floor(query.limit || 10)` —
the strategy topK (when present and non-zero, since `0` is falsy) wins over
the caller-supplied query limit. -/
def resultLimit (vectorTopK : Option ℕ) (queryLimit : Option ℕ) : ℕ :=
  match vectorTopK with
  | some k => if k = 0 then fallbackLimit queryLimit else k
  | none => fallbackLimit queryLimit

/-- A search strategy as held in the `searchStrategies` map. -/
structure SearchStrategyM where
  useVectorSearch : Bool
  useTextSearch : Bool
  vectorTopK : Option ℕ
  vectorThreshold : Option ℚ
  includeAdjacentChunks : Bool
  contextWindow : ℕ
  textLimit : Option ℕ
deriving DecidableEq

/-- Built-in strategy `vector-only` (topK 8, threshold 0.5, no expansion). -/
def vectorOnlyStrategy : SearchStrategyM :=
  ⟨true, false, some 8, some (mkRat 1 2), false, 2, none⟩

/-- Built-in strategy `hybrid-vector-heavy` (topK 8, expansion on, text limit 2). -/
def hybridVectorHeavyStrategy : SearchStrategyM :=
  ⟨true, true, some 8, some (mkRat 1 2), true, 2, some 2⟩

/-- Built-in strategy `vector-with-context` (topK 8, expansion on). -/
def vectorWithContextStrategy : SearchStrategyM :=
  ⟨true, false, some 8, some (mkRat 1 2), true, 2, none⟩

/-- The final stage of `UnifiedSearch.search` (lines 176-183): the fused branch
results are optimised with the limit of `resultLimit`.  The fused list is the
concatenation of the vector and text branch outputs; both branches are
external reads, so the fused list is a parameter. -/
def searchFinalize (strategy : SearchStrategyM) (queryLimit : Option ℕ)
    (fusedResults : List USearchResult) : List NormedResult :=
  optimizeResults fusedResults (resultLimit strategy.vectorTopK queryLimit)

/-! ### The graph store model and the lexical branch (`performTextSearch`) -/

/-- A chunk node as stored in Neo4j (the properties read by the searches). -/
structure DbChunk where
  id : String
  text : String
  chunkIndex : ℤ
  fileName : String
  documentId : String
  embedding : Option (List ℚ)
deriving DecidableEq

/-- A row produced by the Cypher query of `performTextSearch`. -/
structure TextRow where
  content : String
  source : String
  score : ℚ
  chunkIndex : ℤ
deriving DecidableEq

/-- Cypher `ORDER BY score DESC, c.chunk_index ASC`. -/
def textRowOrder (a b : TextRow) : Prop :=
  b.score < a.score ∨ (b.score = a.score ∧ a.chunkIndex ≤ b.chunkIndex)

instance : DecidableRel textRowOrder := fun a b =>
  inferInstanceAs (Decidable (b.score < a.score ∨ (b.score = a.score ∧ a.chunkIndex ≤ b.chunkIndex)))

/-- `UnifiedSearch.performTextSearch` (lines 461-506): rows are the chunks
whose text contains the query **case-sensitively** (`c.text CONTAINS $query`);
each row is scored `0.8` when the lower-cased text contains the lower-cased
query and `0.3` otherwise; rows are ordered by score descending then chunk
index ascending, limited, and invalid rows (empty trimmed content or empty
source) are dropped. -/
def performTextSearch (db : List DbChunk) (query : String) (lim : ℕ) : List TextRow :=
  let rows := db.filter (fun c => strContainsB c.text query)
  let scored := rows.map (fun c =>
    ({ content := c.text, source := c.id,
       score := if strContainsB (lowerStr c.text) (lowerStr query)
                then mkRat 8 10 else mkRat 3 10,
       chunkIndex := c.chunkIndex } : TextRow))
  let sorted := scored.insertionSort textRowOrder
  (sorted.take lim).filter (fun r => !(jsTrim r.content.data).isEmpty && r.source != "")

/-! ### Vector search with context expansion (`vector-search.ts`) -/

/-- A result of the vector search service. -/
structure VSResult where
  id : String
  text : String
  score : ℚ
  chunkIndex : ℤ
  fileName : String
  documentId : String
deriving DecidableEq

/-- Descending score order used by `sort((a, b) => b.score - a.score)`. -/
def vsScoreGE (a b : VSResult) : Prop := b.score ≤ a.score

instance : DecidableRel vsScoreGE := fun a b =>
  inferInstanceAs (Decidable (b.score ≤ a.score))

instance : IsTotal VSResult vsScoreGE := ⟨fun a b => le_total b.score a.score⟩

instance : IsTrans VSResult vsScoreGE := ⟨fun _ _ _ hab hbc => le_trans hbc hab⟩

/-- Descending similarity order of the Cypher `ORDER BY similarity DESC`
applied to (chunk, similarity) pairs. -/
def pairScoreGE (a b : DbChunk × ℚ) : Prop := b.2 ≤ a.2

instance : DecidableRel pairScoreGE := fun a b =>
  inferInstanceAs (Decidable (b.2 ≤ a.2))

instance : IsTotal (DbChunk × ℚ) pairScoreGE := ⟨fun a b => le_total b.2 a.2⟩

instance : IsTrans (DbChunk × ℚ) pairScoreGE := ⟨fun _ _ _ hab hbc => le_trans hbc hab⟩

/-- `VectorSearchService.searchSimilarVectors` (lines 64-102): for every chunk
carrying an embedding compute the similarity to the query vector (the external
`gds.similarity.cosine` is the parameter `sim`), keep those not below the
threshold, order by similarity descending, and take `topK`. -/
def searchSimilarVectors (sim : List ℚ → List ℚ → ℚ) (db : List DbChunk)
    (queryVector : List ℚ) (topK : ℕ) (threshold : ℚ) : List VSResult :=
  let withSim := db.filterMap (fun c => c.embedding.map (fun e => (c, sim e queryVector)))
  let hits := withSim.filter (fun p => threshold ≤ p.2)
  let sorted := hits.insertionSort pairScoreGE
  (sorted.take topK).map (fun p =>
    ⟨p.1.id, p.1.text, p.2, p.1.chunkIndex, p.1.fileName, p.1.documentId⟩)

/-- Successors of a node in the NEXT_CHUNK edge list. -/
def succIds (edges : List (String × String)) (x : String) : List String :=
  (edges.filter (fun e => e.1 == x)).map (fun e => e.2)

/-- All nodes reachable in 1 to `w` hops along `edges` from the given frontier
(the variable-length pattern `-[:NEXT_CHUNK*1..w]->`). -/
def reachWithin (edges : List (String × String)) : ℕ → List String → List String
  | 0, _ => []
  | n + 1, frontier =>
    let next := (frontier.map (succIds edges)).flatten
    next ++ reachWithin edges n next

/-- `VectorSearchService.getAdjacentChunks` (lines 149-213): if the chunk is
absent return `[]`; otherwise return every chunk reachable within
`contextWindow` NEXT_CHUNK hops forward or backward, each with the fixed score
`0.8`.  The Cypher `UNION` removes duplicate rows; the unspecified row order is
determinised as forward results before backward ones. -/
def getAdjacentChunks (db : List DbChunk) (edges : List (String × String))
    (chunkId : String) (contextWindow : ℕ) : List VSResult :=
  if (db.find? (fun c => c.id == chunkId)).isNone then []
  else
    let fwd := reachWithin edges contextWindow [chunkId]
    let bwd := reachWithin (edges.map (fun e => (e.2, e.1))) contextWindow [chunkId]
    let ids := (fwd ++ bwd).dedup
    ids.filterMap (fun i =>
      (db.find? (fun c => c.id == i)).map (fun c =>
        ⟨c.id, c.text, mkRat 8 10, c.chunkIndex, c.fileName, c.documentId⟩))

/-- First-occurrence deduplication by result id (`removeDuplicates`). -/
def dedupById (seen : List String) : List VSResult → List VSResult
  | [] => []
  | r :: rest =>
    if r.id ∈ seen then dedupById seen rest
    else r :: dedupById (r.id :: seen) rest

/-- `VectorSearchService.searchWithContext` (lines 107-144): run the primary
vector search; unless expansion is requested and results are non-empty, return
them; otherwise append, after each primary hit, its adjacent chunks, remove
duplicates by id keeping the first occurrence, and sort by score descending. -/
def searchWithContext (sim : List ℚ → List ℚ → ℚ) (db : List DbChunk)
    (edges : List (String × String)) (queryVector : List ℚ) (topK : ℕ)
    (threshold : ℚ) (includeAdjacentChunks : Bool) (contextWindow : ℕ) : List VSResult :=
  let results := searchSimilarVectors sim db queryVector topK threshold
  if !includeAdjacentChunks || results.isEmpty then results
  else
    let expandedResults := results.flatMap
      (fun r => r :: getAdjacentChunks db edges r.id contextWindow)
    let uniqueResults := dedupById [] expandedResults
    uniqueResults.insertionSort vsScoreGE

/-! ### Embedding manager: cache key, cache, retry (part_005 of the sources) -/

/-- The standard base64 alphabet used by `Buffer.prototype.toString('base64')`. -/
def b64Alphabet : List Char :=
  ("ABCDEFGHIJKLMNOPQRSTUVWXYZabcdefghijklmnopqrstuvwxyz0123456789+/").data

/-- The base64 digit of a 6-bit value. -/
def b64Char (n : ℕ) : Char := b64Alphabet.getD n ('A')

/-- Standard base64 encoding of a byte sequence (with `=` padding), as
produced by `Buffer.from(text).toString('base64')`. -/
def base64Encode : List ℕ → List Char
  | [] => []
  | [b₁] => [b64Char (b₁ / 4), b64Char (b₁ % 4 * 16), '=', '=']
  | [b₁, b₂] => [b64Char (b₁ / 4), b64Char (b₁ % 4 * 16 + b₂ / 16), b64Char (b₂ % 16 * 4), '=']
  | b₁ :: b₂ :: b₃ :: rest =>
    b64Char (b₁ / 4) :: b64Char (b₁ % 4 * 16 + b₂ / 16) ::
      b64Char (b₂ % 16 * 4 + b₃ / 64) :: b64Char (b₃ % 64) :: base64Encode rest

/-- UTF-8 encoding of one character (the encoding used by `Buffer.from`). -/
def utf8Bytes (c : Char) : List ℕ :=
  let n := c.toNat
  if n < 128 then [n]
  else if n < 2048 then [192 + n / 64, 128 + n % 64]
  else if n < 65536 then [224 + n / 4096, 128 + n / 64 % 64, 128 + n % 64]
  else [240 + n / 262144, 128 + n / 4096 % 64, 128 + n / 64 % 64, 128 + n % 64]

/-- The UTF-8 bytes of a string (`Buffer.from(text)`). -/
def textBytes (s : String) : List ℕ := s.data.flatMap utf8Bytes

/-- `EmbeddingManager.generateCacheKey` (part_005 lines 202-204):
`'embedding:' + Buffer.from(text).toString('base64').substring(0, 32)`. -/
def generateCacheKey (text : String) : String :=
  ("embedding:") ++ String.mk ((base64Encode (textBytes text)).take 32)

/-- One entry of the embedding cache. -/
structure CacheEntry where
  embedding : List ℚ
  timestamp : ℤ
  ttl : ℤ
deriving DecidableEq

/-- The embedding cache: a JS object keyed by cache-key strings, modelled as an
association list (all operations below keep keys unique, as a JS object does). -/
abbrev EmbCache := List (String × CacheEntry)

/-- The fixed cache time-to-live: 24 hours in milliseconds. -/
def cacheTTLms : ℤ := 86400000

/-- `EmbeddingManager.getFromCache` (lines 209-221): a fresh entry is returned;
an expired entry is deleted; `now` is the value of `Date.now()` at the call. -/
def getFromCache (now : ℤ) (key : String) (cache : EmbCache) :
    Option (List ℚ) × EmbCache :=
  match List.lookup key cache with
  | some e =>
    if now - e.timestamp < e.ttl then (some e.embedding, cache)
    else (none, cache.eraseP (fun p => p.1 == key))
  | none => (none, cache)

/-- `EmbeddingManager.setCache` (lines 226-232): store the embedding under the
key with the fixed TTL, replacing any previous entry for that key. -/
def setCache (now : ℤ) (key : String) (embedding : List ℚ) (cache : EmbCache) : EmbCache :=
  (key, ⟨embedding, now, cacheTTLms⟩) :: cache.eraseP (fun p => p.1 == key)

/-- The value a cache lookup would return at time `now` without mutating the
cache (used to state theorems about the cache contents). -/
def validLookup (now : ℤ) (key : String) (cache : EmbCache) : Option (List ℚ) :=
  match List.lookup key cache with
  | some e => if now - e.timestamp < e.ttl then some e.embedding else none
  | none => none

/-- Number of cache entries stored under a given key. -/
def countKey (key : String) (cache : EmbCache) : ℕ :=
  (cache.filter (fun p => p.1 == key)).length

/-- `EmbeddingManager.embedWithRetry` (lines 183-197): call the provider; on
failure retry while `attempt < retryAttempts`, else rethrow.  The provider is
modelled as a map from the attempt number to that attempt's outcome; the
returned natural number is the successful attempt index, which equals the
number of provider invocations made when starting from attempt 1 (the
incremental delay between attempts has no observable effect here). -/
def embedWithRetry (provider : ℕ → Except String (List ℚ)) (retryAttempts : ℕ)
    (attempt : ℕ) : Except String (List ℚ × ℕ) :=
  match provider attempt with
  | .ok v => .ok (v, attempt)
  | .error e =>
    if h : attempt < retryAttempts then embedWithRetry provider retryAttempts (attempt + 1)
    else .error e
termination_by retryAttempts - attempt
decreasing_by omega

/-- `EmbeddingManager.embedQuery` (lines 116-133): check the cache under the
text's key; on a hit return the cached vector (zero provider calls); on a miss
embed with retry starting at attempt 1 and store the result with the fixed
TTL.  The final component counts provider invocations. -/
def embedQuery (provider : ℕ → Except String (List ℚ)) (retryAttempts : ℕ)
    (now : ℤ) (text : String) (cache : EmbCache) :
    Except String (List ℚ × EmbCache × ℕ) :=
  let key := generateCacheKey text
  match getFromCache now key cache with
  | (some v, cache₁) => .ok (v, cache₁, 0)
  | (none, cache₁) =>
    match embedWithRetry provider retryAttempts 1 with
    | .ok (v, calls) => .ok (v, setCache now key v cache₁, calls)
    | .error e => .error e

/-- The first loop of `EmbeddingManager.embedDocuments` (lines 146-157): check
the cache for each text in order, threading the cache (expired entries are
deleted by `getFromCache`), and record each text with its hit, if any. -/
def partitionPass (now : ℤ) : List String → EmbCache →
    (List (String × Option (List ℚ))) × EmbCache
  | [], cache => ([], cache)
  | t :: ts, cache =>
    let hit := getFromCache now (generateCacheKey t) cache
    let rest := partitionPass now ts hit.2
    ((t, hit.1) :: rest.1, rest.2)

/-- `EmbeddingManager.embedDocuments` (lines 138-178): cached texts are
answered from the cache; the uncached texts, in input order, are embedded by a
single batch provider call, whose per-position contract (same length,
order-preserving, as required of the provider) is modelled by the elementwise
function `f`; each new vector is written back into the cache and into the
output position of its text.  The last component is the list of batch calls
issued (at most one, carrying exactly the uncached texts). -/
def embedDocuments (f : String → List ℚ) (now : ℤ) (texts : List String)
    (cache : EmbCache) : List (List ℚ) × EmbCache × List (List String) :=
  let pass := partitionPass now texts cache
  let uncachedTexts := (pass.1.filter (fun p => p.2.isNone)).map (fun p => p.1)
  let results := pass.1.map (fun p => match p.2 with | some v => v | none => f p.1)
  let cache₂ := uncachedTexts.foldl
    (fun c t => setCache now (generateCacheKey t) (f t) c) pass.2
  (results, cache₂, if uncachedTexts.isEmpty then [] else [uncachedTexts])

/-! ### Graph writer: FIRST_CHUNK / NEXT_CHUNK edges
(`GraphStructureBuilder.createRelationBetweenChunks`, also
`BaseGraphService.createChunksAndRelationshipsOptimized`) -/

/-- The NEXT_CHUNK relationship records pushed by the loop for positions 2..N:
each carries the previous chunk's content hash and the current one's. -/
def nextRelsAux (hash : String → String) (prevId : String) :
    List String → List (String × String)
  | [] => []
  | t :: rest => (prevId, hash t) :: nextRelsAux hash (hash t) rest

/-- `createRelationBetweenChunks` for one document (chat.ts lines 218-299):
chunk ids are content hashes (`generateHash`, kept as the parameter `hash`);
position 1 yields the single FIRST_CHUNK record `(fileName, hash t₁)` and each
later position a NEXT_CHUNK record from the previous chunk's hash.  Batching
splits the same records over several `MERGE` calls, so the resulting edge sets
are unchanged. -/
def createRelationBetweenChunks (hash : String → String) (fileName : String) :
    List String → List (String × String) × List (String × String)
  | [] => ([], [])
  | t :: rest => ([(fileName, hash t)], nextRelsAux hash (hash t) rest)

/-- Follow NEXT_CHUNK edges from a node, collecting visited nodes, until a node
with no outgoing edge is reached; `none` when the fuel runs out, i.e. the walk
has not terminated within `fuel` steps. -/
def chainVisits (edges : List (String × String)) (start : String) :
    ℕ → Option (List String)
  | 0 => none
  | fuel + 1 =>
    match edges.find? (fun e => e.1 == start) with
    | none => some [start]
    | some e => (chainVisits edges e.2 fuel).map (fun v => start :: v)

/-- Chain integrity for one document written into an empty store (the property
of the claim): after `MERGE` deduplication exactly one FIRST_CHUNK edge
exists, and following NEXT_CHUNK edges from its target terminates, visiting
exactly the document's chunks, one per position in position order, each a
distinct node. -/
def chainIntegrity (hash : String → String) (fileName : String)
    (texts : List String) : Prop :=
  match texts with
  | [] => True
  | t :: _ =>
    let rels := createRelationBetweenChunks hash fileName texts
    rels.1.dedup.length = 1 ∧
    ∃ fuel visited, chainVisits rels.2.dedup (hash t) fuel = some visited ∧
      visited = texts.map hash ∧ visited.Nodup

/-- Consecutive pairs of a list (the intended NEXT_CHUNK edge set). -/
def consPairs (l : List String) : List (String × String) := l.zip l.tail

/-! ### Enhanced text chunker (part_014 of the sources) -/

/-- Chunking options (`ChunkingOptions`). -/
structure ChunkOpts where
  chunkSize : ℕ
  overlap : ℕ
  maxTextLength : ℕ
  preserveSentences : Bool
  multilingualSupport : Bool
deriving DecidableEq

/-- The full sentence-ending set `[。！？.!?]` (hard-coded in
`splitIntoSentences`). -/
def isSentencePunctAll (c : Char) : Bool :=
  c == '。' || c == '！' || c == '？' || c == '.' || c == '!' || c == '?'

/-- `this.sentenceEndings`: the multilingual set when `multilingualSupport` is
on, else `[.!?]`. -/
def isSentenceEnding (o : ChunkOpts) (c : Char) : Bool :=
  if o.multilingualSupport then isSentencePunctAll c
  else c == '.' || c == '!' || c == '?'

/-- `findNextSentenceEnd` (lines 298-305): the position one past the first
sentence-ending character at or after `startPos`, or the text length. -/
def findNextSentenceEnd (o : ChunkOpts) (text : List Char) (startPos : ℕ) : ℕ :=
  match (text.drop startPos).findIdx? (isSentenceEnding o) with
  | some j => startPos + j + 1
  | none => text.length

/-- The whitespace skip inside `findPreviousSentenceStart`. -/
def skipWsFrom (text : List Char) (p : ℕ) : ℕ :=
  p + ((text.drop p).takeWhile Char.isWhitespace).length

/-- The downward scan of `findPreviousSentenceStart` from index `i - 1`. -/
def fpssAux (o : ChunkOpts) (text : List Char) : ℕ → ℕ
  | 0 => 0
  | i + 1 =>
    if isSentenceEnding o (text.getD i ' ') then skipWsFrom text (i + 1)
    else fpssAux o text i

/-- `findPreviousSentenceStart` (lines 310-323): scan backwards for a
sentence-ending character, then skip the following whitespace; `0` if none. -/
def findPreviousSentenceStart (o : ChunkOpts) (text : List Char) (startPos : ℕ) : ℕ :=
  fpssAux o text startPos

/-- The window end of one iteration of the `chunkSingleSegment` loop
(lines 248-257): `endPos = min(startPos + chunkSize, length)`, extended to the
next sentence end when boundary preservation is on, that end is needed
(`endPos < length`), and the extension stays within the 100-character slack. -/
def csEnd (o : ChunkOpts) (text : List Char) (startPos : ℕ) : ℕ :=
  let endPos0 := min (startPos + o.chunkSize) text.length
  if endPos0 < text.length ∧ o.preserveSentences = true then
    let sentenceEnd := findNextSentenceEnd o text endPos0
    if sentenceEnd ≤ startPos + o.chunkSize + 100 then sentenceEnd else endPos0
  else endPos0

/-- The next start position of one iteration (lines 270-289): back up by the
overlap (never before the current start), optionally pull back to the previous
sentence start when that stays inside `(startPos, endPos)`, and finally cap at
`endPos` (the `startPos >= endPos` guard). -/
def csNext (o : ChunkOpts) (text : List Char) (startPos endPos : ℕ) : ℕ :=
  let overlapStart := max startPos (endPos - o.overlap)
  let startPos₁ :=
    if o.preserveSentences = true then
      let nextSentenceStart := findPreviousSentenceStart o text overlapStart
      if startPos < nextSentenceStart ∧ nextSentenceStart < endPos then
        nextSentenceStart
      else overlapStart
    else overlapStart
  if endPos ≤ startPos₁ then endPos else startPos₁

/-- The `while (startPos < text.length)` loop of `chunkSingleSegment`
(lines 247-292), with explicit fuel: `none` models non-termination within
`fuel` iterations. -/
def csLoop (o : ChunkOpts) (text : List Char) :
    ℕ → ℕ → List (List Char) → Option (List (List Char))
  | 0, _, _ => none
  | fuel + 1, startPos, chunks =>
    if startPos < text.length then
      let endPos := csEnd o text startPos
      let chunk := jsTrim ((text.drop startPos).take (endPos - startPos))
      let chunks₁ := if chunk.isEmpty then chunks else chunks ++ [chunk]
      if text.length ≤ endPos then some chunks₁
      else csLoop o text fuel (csNext o text startPos endPos) chunks₁
    else some chunks

/-- `chunkSingleSegment` (lines 234-293): empty/whitespace text gives no
chunks; text not exceeding `chunkSize` is one trimmed chunk; otherwise the
sliding-window loop runs. -/
def chunkSingleSegment (o : ChunkOpts) (text : List Char) (fuel : ℕ) :
    Option (List (List Char)) :=
  if (jsTrim text).isEmpty then some []
  else if text.length ≤ o.chunkSize then some [jsTrim text]
  else csLoop o text fuel 0 []

/-- Termination of the `chunkSingleSegment` loop on a given input: some fuel
suffices for the loop to return. -/
def chunkLoopTerminates (o : ChunkOpts) (text : List Char) : Prop :=
  ∃ fuel out, chunkSingleSegment o text fuel = some out

/-- The `for (i = 0; i < text.length; i += maxSize)` loop of
`splitByFixedLength`; with `maxSize = 0` the loop never advances, hence the
fuel. -/
def sbflAux (l : List Char) (maxSize : ℕ) : ℕ → ℕ → Option (List (List Char))
  | 0, _ => none
  | fuel + 1, i =>
    if i < l.length then
      (sbflAux l maxSize fuel (i + maxSize)).map (fun rest => (l.drop i).take maxSize :: rest)
    else some []

/-- `splitByFixedLength` (lines 223-229). -/
def splitByFixedLength (l : List Char) (maxSize : ℕ) (fuel : ℕ) :
    Option (List (List Char)) :=
  sbflAux l maxSize fuel 0

/-- `splitIntoSentences` (lines 193-218): when sentence preservation is off the
text is one piece; otherwise the text is split by the capture-group regex on
the hard-coded punctuation set.  The JS split with a capture group alternates
contents and separators; the loop reattaches each punctuation mark to the
non-blank sentence before it and keeps a non-blank trailing part. -/
def splitIntoSentences (o : ChunkOpts) (l : List Char) : List (List Char) :=
  if o.preserveSentences = false then [l]
  else
    let parts := l.splitOnP isSentencePunctAll
    let puncts := l.filter isSentencePunctAll
    let paired := (parts.zip puncts).filterMap
      (fun pc => if (jsTrim pc.1).isEmpty then none else some (pc.1 ++ [pc.2]))
    let lastPart := parts.getLastD []
    paired ++ (if (jsTrim lastPart).isEmpty then [] else [lastPart])

/-- The sentence-recombination loop of `splitLongParagraph` (lines 158-180),
with state (emitted segments, current segment). -/
def slpLoop (maxSize : ℕ) (fuel : ℕ) :
    List (List Char) → List (List Char) → List Char →
    Option (List (List Char) × List Char)
  | [], segs, cur => some (segs, cur)
  | s :: rest, segs, cur =>
    if maxSize < s.length then
      let segs₁ := if cur.isEmpty then segs else segs ++ [cur]
      match splitByFixedLength s maxSize fuel with
      | none => none
      | some pieces => slpLoop maxSize fuel rest (segs₁ ++ pieces) []
    else if maxSize < cur.length + s.length then
      let segs₁ := if cur.isEmpty then segs else segs ++ [cur]
      slpLoop maxSize fuel rest segs₁ s
    else slpLoop maxSize fuel rest segs (cur ++ s)

/-- `splitLongParagraph` (lines 141-188). -/
def splitLongParagraph (o : ChunkOpts) (text : List Char) (maxSize : ℕ)
    (fuel : ℕ) : Option (List (List Char)) :=
  if text.length ≤ maxSize then some [text]
  else
    let sentences := splitIntoSentences o text
    if sentences.isEmpty then splitByFixedLength text maxSize fuel
    else
      match slpLoop maxSize fuel sentences [] [] with
      | none => none
      | some sc => some (if sc.2.isEmpty then sc.1 else sc.1 ++ [sc.2])

/-- Index of the last newline in a whitespace run (for the greedy backtracking
match of the separator regex). -/
def lastNewlineIdx (run : List Char) : Option ℕ :=
  (run.reverse.findIdx? (fun c => c == '\n')).map (fun j => run.length - 1 - j)

/-- JS `text.split(/\n\s*\n/)`: scan for a newline followed by a whitespace run
containing another newline; the greedy separator ends at the last newline of
the run.  Separators are dropped; empty pieces are kept, as JS split does. -/
def paraSplitAux : List Char → List Char → List (List Char)
  | [], cur => [cur.reverse]
  | c :: rest, cur =>
    if c == '\n' then
      match lastNewlineIdx (rest.takeWhile Char.isWhitespace) with
      | some k => cur.reverse :: paraSplitAux (rest.drop (k + 1)) []
      | none => paraSplitAux rest (c :: cur)
    else paraSplitAux rest (c :: cur)
termination_by l _ => l.length
decreasing_by
  all_goals simp_wf
  all_goals omega

/-- The paragraph split of `preprocessLargeText` (line 87). -/
def paraSplit (l : List Char) : List (List Char) := paraSplitAux l []

/-- `targetSegmentSize` (lines 81-84).  The JS value can be the half-integer
`maxTextLength / 2`; every comparison made with it against integer lengths
agrees with this floored value. -/
def targetSegmentSize (o : ChunkOpts) : ℕ :=
  min o.maxTextLength (max 10000 (o.maxTextLength / 2))

/-- The paragraph-recombination loop of `preprocessLargeText` (lines 98-128),
with state (emitted segments, current segment). -/
def pltLoop (o : ChunkOpts) (tss : ℕ) (fuel : ℕ) :
    List (List Char) → List (List Char) → List Char →
    Option (List (List Char) × List Char)
  | [], segs, cur => some (segs, cur)
  | para :: rest, segs, cur =>
    let tp := jsTrim para
    if tp.isEmpty then pltLoop o tss fuel rest segs cur
    else if tss < tp.length then
      let segs₁ := if cur.isEmpty then segs else segs ++ [cur]
      match splitLongParagraph o tp tss fuel with
      | none => none
      | some pieces => pltLoop o tss fuel rest (segs₁ ++ pieces) []
    else if tss < cur.length + tp.length + 2 then
      let segs₁ := if cur.isEmpty then segs else segs ++ [cur]
      pltLoop o tss fuel rest segs₁ tp
    else if cur.isEmpty then pltLoop o tss fuel rest segs tp
    else pltLoop o tss fuel rest segs (cur ++ ('\n' :: '\n' :: tp))

/-- `preprocessLargeText` (lines 75-136): text within `maxTextLength` stays
whole; otherwise split into paragraphs (falling back to single newlines when
fewer than 5 paragraphs) and recombine them into bounded segments. -/
def preprocessLargeText (o : ChunkOpts) (l : List Char) (fuel : ℕ) :
    Option (List (List Char)) :=
  if l.length ≤ o.maxTextLength then some [l]
  else
    let paras0 := paraSplit l
    let paras := if paras0.length < 5 then l.splitOn '\n' else paras0
    match pltLoop o (targetSegmentSize o) fuel paras [] [] with
    | none => none
    | some sc => some (if sc.2.isEmpty then sc.1 else sc.1 ++ [sc.2])

/-- `chunkText` (lines 49-70): blank text gives no chunks; text shorter than a
tenth of `chunkSize` (`text.length < chunkSize / 10` over JS floats, i.e.
`10 * length < chunkSize`) is one trimmed chunk; otherwise each preprocessed
segment is chunked and the chunk lists are concatenated. -/
def chunkText (o : ChunkOpts) (l : List Char) (fuel : ℕ) :
    Option (List (List Char)) :=
  if (jsTrim l).isEmpty then some []
  else if 10 * l.length < o.chunkSize then some [jsTrim l]
  else
    match preprocessLargeText o l fuel with
    | none => none
    | some segs =>
      (segs.mapM (fun s => chunkSingleSegment o s fuel)).map List.flatten

/-! ### Concrete instances used by counterexamples and witnesses -/

/-- A store with one embedded chunk `c1` (similarity 3/5 to the query) and its
order-chain neighbour `c2`, which carries no embedding. -/
def c1db : List DbChunk :=
  [⟨"c1", "text one", 1, "f.md", "d1", some [mkRat 3 5]⟩,
   ⟨"c2", "text two", 2, "f.md", "d1", none⟩]

/-- The NEXT_CHUNK edge `c1 → c2`. -/
def c1edges : List (String × String) := [("c1", "c2")]

/-- A concrete instance of the external similarity primitive: the head of the
stored embedding (cosine similarity is external, so any function is a valid
instantiation; this one makes `c1` score 3/5). -/
def c1sim : List ℚ → List ℚ → ℚ := fun e _ => e.headD 0

/-- A valid candidate result with raw score 0.5. -/
def c2resA : USearchResult := ⟨"alpha", "s1", .num (mkRat 1 2)⟩

/-- A valid candidate result with raw score 0.4 and a different dedup key. -/
def c2resB : USearchResult := ⟨"beta", "s2", .num (mkRat 2 5)⟩

/-- A store with one chunk whose text contains the query only after
lower-casing. -/
def c4db : List DbChunk := [⟨"c1", "world", 1, "f.md", "d1", none⟩]

/-- A provider failing on attempts 1 and 2 and succeeding on attempt 3. -/
def c5provider : ℕ → Except String (List ℚ) :=
  fun attempt => if attempt = 3 then .ok [mkRat 1 1] else .error ("boom")

/-- A batch embedding provider (elementwise view) returning `[2]` for every
text. -/
def c6f : String → List ℚ := fun _ => [mkRat 2 1]

/-- A batch embedding provider (elementwise view) that distinguishes the two
key-colliding 25-byte texts: `[1]` for the text ending in `X`, `[2]` for every
other text. -/
def c6g : String → List ℚ :=
  fun t => if t = ("aaaaaaaaaaaaaaaaaaaaaaaaX") then [mkRat 1 1] else [mkRat 2 1]

/-- Chunking options with a 5-character window, overlap 2 and sentence
preservation, used to exercise `chunkText`. -/
def c8Opts : ChunkOpts := ⟨5, 2, 1000, true, false⟩

/-- Chunking options whose overlap exceeds the chunk size: each iteration of
the window loop recomputes the same window. -/
def c9Opts : ChunkOpts := ⟨2, 5, 100000, false, false⟩

/-! ## Theorems -/

/-! ### Generic lemmas -/

theorem jsClamp_nonneg (q : ℚ) : 0 ≤ jsMax 0 (jsMin 1 q) := by
  unfold jsMax jsMin
  split_ifs <;> linarith

theorem jsClamp_le_one (q : ℚ) : jsMax 0 (jsMin 1 q) ≤ 1 := by
  unfold jsMax jsMin
  split_ifs <;> linarith

theorem normalizeScore_nonneg (sc : RawScore) : 0 ≤ normalizeScore sc := by
  rcases sc with q | ⟨_ | l, _ | h⟩ | _ <;>
    simp only [normalizeScore] <;>
    first
      | exact jsClamp_nonneg _
      | norm_num [Rat.mkRat_eq_div]

theorem normalizeScore_le_one (sc : RawScore) : normalizeScore sc ≤ 1 := by
  rcases sc with q | ⟨_ | l, _ | h⟩ | _ <;>
    simp only [normalizeScore] <;>
    first
      | exact jsClamp_le_one _
      | norm_num [Rat.mkRat_eq_div]

theorem dedupByKey_sublist (seen : List String) :
    ∀ l : List NormedResult, (dedupByKey seen l).Sublist l := by
  intro l
  induction l generalizing seen with
  | nil => simp [dedupByKey]
  | cons r rest ih =>
    simp only [dedupByKey]
    split_ifs with h
    · exact (ih seen).cons r
    · exact (ih (dedupKey r :: seen)).cons₂ r

theorem mem_dedupByKey {seen : List String} {l : List NormedResult} {r : NormedResult}
    (h : r ∈ dedupByKey seen l) : r ∈ l :=
  (dedupByKey_sublist seen l).mem h

theorem mem_dedupByKey_not_seen :
    ∀ (seen : List String) (l : List NormedResult) (r : NormedResult),
      r ∈ dedupByKey seen l → dedupKey r ∉ seen := by
  intro seen l
  induction l generalizing seen with
  | nil => intro r h; simp [dedupByKey] at h
  | cons a rest ih =>
    intro r h
    simp only [dedupByKey] at h
    split_ifs at h with ha
    · exact ih seen r h
    · rcases List.mem_cons.mp h with rfl | h₂
      · exact ha
      · intro hs
        exact ih (dedupKey a :: seen) r h₂ (List.mem_cons_of_mem _ hs)

theorem dedupByKey_pairwise (seen : List String) :
    ∀ l : List NormedResult,
      (dedupByKey seen l).Pairwise (fun a b => dedupKey a ≠ dedupKey b) := by
  intro l
  induction l generalizing seen with
  | nil => simp [dedupByKey]
  | cons a rest ih =>
    simp only [dedupByKey]
    split_ifs with h
    · exact ih seen
    · refine List.Pairwise.cons ?_ (ih (dedupKey a :: seen))
      intro b hb hkey
      exact mem_dedupByKey_not_seen _ _ _ hb (hkey ▸ List.mem_cons_self _ _)

theorem mem_preTruncation {results : List USearchResult} {r : NormedResult}
    (h : r ∈ preTruncation results) :
    r.normalizedScore = normalizeScore r.res.score ∧ mkRat 1 100 ≤ r.normalizedScore := by
  unfold preTruncation at h
  have h₁ := List.mem_filter.mp h
  refine ⟨?_, of_decide_eq_true h₁.2⟩
  have h₂ := mem_dedupByKey h₁.1
  have h₃ := (List.mem_insertionSort normGE).mp h₂
  obtain ⟨x, _, hx⟩ := List.mem_map.mp h₃
  rw [← hx]

/-! ### Claim C7 -/

/-- Claim C7: every search result returned by `search` carries a normalised
score in `[0,1]`: the returned `normalizedScore` field equals
`normalizeScore` of the raw score (numbers clamped, Neo4j integer objects
resolved to a component over 100, anything else the neutral 0.5), which always
lies in `[0,1]`, and survivors moreover passed the quality floor 0.01. -/
theorem C7_normalizedScoreRange (strategy : SearchStrategyM) (queryLimit : Option ℕ)
    (fused : List USearchResult) (r : NormedResult)
    (hr : r ∈ searchFinalize strategy queryLimit fused) :
    r.normalizedScore = normalizeScore r.res.score ∧
      0 ≤ r.normalizedScore ∧ r.normalizedScore ≤ 1 := by
  simp only [searchFinalize, optimizeResults] at hr
  split_ifs at hr with h
  · simp at hr
  · have h₁ := (List.take_sublist _ _).mem hr
    have h₂ := mem_preTruncation h₁
    refine ⟨h₂.1, ?_, ?_⟩
    · rw [h₂.1]; exact normalizeScore_nonneg _
    · rw [h₂.1]; exact normalizeScore_le_one _

/-- Witness for C7 at a concrete search: the single surviving result of a
vector-only search over one candidate. -/
theorem C7_normalizedScoreRange_witness :
    (⟨c2resA, mkRat 1 2⟩ : NormedResult).normalizedScore
        = normalizeScore (⟨c2resA, mkRat 1 2⟩ : NormedResult).res.score ∧
      0 ≤ (⟨c2resA, mkRat 1 2⟩ : NormedResult).normalizedScore ∧
      (⟨c2resA, mkRat 1 2⟩ : NormedResult).normalizedScore ≤ 1 :=
  C7_normalizedScoreRange vectorOnlyStrategy (some 1) [c2resA] ⟨c2resA, mkRat 1 2⟩ (by decide)

/-! ### Claim C2 -/

theorem preTruncation_of_no_valid {results : List USearchResult}
    (h : results.filter validContent = []) : preTruncation results = [] := by
  unfold preTruncation
  rw [h]
  rfl

theorem optimizeResults_eq_take (results : List USearchResult) (limit : ℕ) :
    optimizeResults results limit = (preTruncation results).take limit := by
  simp only [optimizeResults]
  split_ifs with h
  · rw [preTruncation_of_no_valid (List.isEmpty_iff.mp h), List.take_nil]
  · rfl

/-- Claim C2 (amended): `search` truncates only after the full candidate set
has been normalised, sorted, deduplicated and quality-filtered — but the
truncation bound is the strategy's `vectorSearchOptions.topK` whenever that is
present and non-zero (all three built-in strategies fix it at 8), and the
caller-supplied limit is used only as a fallback.  The output length is the
minimum of that bound and the pipeline's length (so deduplication never
under-counts), and no two returned results share a deduplication key. -/
theorem C2_truncationAfterPipeline (strategy : SearchStrategyM) (queryLimit : Option ℕ)
    (fused : List USearchResult) :
    searchFinalize strategy queryLimit fused
        = (preTruncation fused).take (resultLimit strategy.vectorTopK queryLimit) ∧
      (searchFinalize strategy queryLimit fused).length
        = min (resultLimit strategy.vectorTopK queryLimit) (preTruncation fused).length ∧
      (searchFinalize strategy queryLimit fused).Pairwise
        (fun a b => dedupKey a ≠ dedupKey b) ∧
      resultLimit vectorOnlyStrategy.vectorTopK queryLimit = 8 := by
  have heq : searchFinalize strategy queryLimit fused
      = (preTruncation fused).take (resultLimit strategy.vectorTopK queryLimit) :=
    optimizeResults_eq_take fused _
  refine ⟨heq, ?_, ?_, rfl⟩
  · rw [heq, List.length_take]
  · rw [heq]
    refine List.Pairwise.sublist (List.take_sublist _ _) ?_
    exact (dedupByKey_pairwise [] _).filter _

/-- Counterexample to claim C2 as stated: with the built-in `vector-only`
strategy and a caller limit of 1, two distinct valid candidates are both
returned — the fused list is truncated to the strategy's topK (8), not to the
caller's limit. -/
theorem C2_counterexample :
    (searchFinalize vectorOnlyStrategy (some 1) [c2resA, c2resB]).length = 2 ∧
      ¬ (searchFinalize vectorOnlyStrategy (some 1) [c2resA, c2resB]).length ≤ 1 := by
  constructor
  · decide
  · decide

/-! ### Claim C4 -/

theorem strContains_lower {hay pat : String} (h : strContainsB hay pat = true) :
    strContainsB (lowerStr hay) (lowerStr pat) = true := by
  unfold strContainsB at h ⊢
  exact decide_eq_true (List.IsInfix.map Char.toLower (of_decide_eq_true h))

/-- Claim C4 (amended): the lexical branch filters chunks by a literal
**case-sensitive** substring match (`c.text CONTAINS $query`); every returned
row therefore contains the query verbatim and — since case-sensitive
containment implies lower-cased containment — is scored with the higher
constant 0.8 (the 0.3 heuristic score is unreachable); when no chunk contains
the query verbatim, the branch returns the empty list rather than failing. -/
theorem C4_textSearchCaseSensitive (db : List DbChunk) (query : String) (lim : ℕ) :
    (∀ r ∈ performTextSearch db query lim,
        r.score = mkRat 8 10 ∧ strContainsB r.content query = true) ∧
      ((∀ c ∈ db, strContainsB c.text query = false) →
        performTextSearch db query lim = []) := by
  constructor
  · intro r hr
    simp only [performTextSearch] at hr
    have h₁ := (List.filter_sublist _).mem hr
    have h₂ := (List.take_sublist _ _).mem h₁
    have h₃ := (List.mem_insertionSort textRowOrder).mp h₂
    obtain ⟨c, hc, hmap⟩ := List.mem_map.mp h₃
    have hcontains : strContainsB c.text query = true := (List.mem_filter.mp hc).2
    subst hmap
    refine ⟨?_, hcontains⟩
    simp only [strContains_lower hcontains, if_true]
  · intro hnone
    have hfilter : db.filter (fun c => strContainsB c.text query) = [] := by
      rw [List.filter_eq_nil_iff]
      intro c hc
      simp [hnone c hc]
    simp [performTextSearch, hfilter]

/-- Counterexample to claim C4 as stated: the chunk text `world` matches the
query `World` case-insensitively, yet the branch returns nothing, because the
Cypher `CONTAINS` filter is case-sensitive. -/
theorem C4_counterexample :
    performTextSearch c4db ("World") 10 = [] ∧
      strContainsB (lowerStr ("world")) (lowerStr ("World")) = true := by
  constructor
  · decide
  · decide

/-- Witness for C4 at a concrete match: the single row returned for the query
`world` carries the exact-match score 0.8 and contains the query. -/
theorem C4_textSearchCaseSensitive_witness :
    (⟨"world", "c1", mkRat 8 10, 1⟩ : TextRow).score = mkRat 8 10 ∧
      strContainsB (⟨"world", "c1", mkRat 8 10, 1⟩ : TextRow).content ("world") = true :=
  (C4_textSearchCaseSensitive c4db ("world") 10).1 ⟨"world", "c1", mkRat 8 10, 1⟩ (by decide)

/-! ### Claim C1 -/

theorem getAdjacentChunks_score (db : List DbChunk) (edges : List (String × String))
    (chunkId : String) (w : ℕ) :
    ∀ r ∈ getAdjacentChunks db edges chunkId w, r.score = mkRat 8 10 := by
  intro r hr
  simp only [getAdjacentChunks] at hr
  split_ifs at hr with h
  · simp at hr
  · obtain ⟨i, _, hi⟩ := List.mem_filterMap.mp hr
    rcases hfind : db.find? (fun c => c.id == i) with _ | c
    · rw [hfind] at hi; simp at hi
    · rw [hfind] at hi
      simp only [Option.map_some'] at hi
      cases hi
      rfl

theorem searchSimilarVectors_pairwise (sim : List ℚ → List ℚ → ℚ) (db : List DbChunk)
    (queryVector : List ℚ) (topK : ℕ) (threshold : ℚ) :
    (searchSimilarVectors sim db queryVector topK threshold).Pairwise vsScoreGE := by
  simp only [searchSimilarVectors]
  rw [List.pairwise_map]
  refine List.Pairwise.sublist (List.take_sublist _ _) ?_
  have hs := List.sorted_insertionSort pairScoreGE
    ((db.filterMap (fun c => c.embedding.map (fun e => (c, sim e queryVector)))).filter
      (fun p => threshold ≤ p.2))
  exact hs

/-- Claim C1 (amended): every context-expansion candidate produced by
`getAdjacentChunks` carries the fixed score 0.8, and the output of
`searchWithContext` is sorted by non-increasing score.  Consequently an
expansion candidate never ranks above a primary vector hit scoring more than
0.8 — but since primary hits only need to clear the 0.5 threshold, an
expansion candidate *can* rank above a primary hit scoring below 0.8, contrary
to the claim as stated. -/
theorem C1_expansionScoresFixedAndSorted (sim : List ℚ → List ℚ → ℚ)
    (db : List DbChunk) (edges : List (String × String)) (queryVector : List ℚ)
    (topK : ℕ) (threshold : ℚ) (w : ℕ) :
    (∀ chunkId, ∀ r ∈ getAdjacentChunks db edges chunkId w, r.score = mkRat 8 10) ∧
      (searchWithContext sim db edges queryVector topK threshold true w).Pairwise
        vsScoreGE := by
  refine ⟨fun chunkId => getAdjacentChunks_score db edges chunkId w, ?_⟩
  simp only [searchWithContext]
  split_ifs with h
  · exact searchSimilarVectors_pairwise sim db queryVector topK threshold
  · exact List.sorted_insertionSort vsScoreGE _

/-- Counterexample to claim C1 as stated: the primary hit `c1` scores 3/5
(above the 0.5 threshold) while its expansion neighbour `c2` receives the
fixed score 4/5, so the expansion candidate is ranked first — its fixed score
is not lower than every primary hit's score. -/
theorem C1_counterexample :
    (searchWithContext c1sim c1db c1edges [1] 8 (mkRat 1 2) true 2).map
        (fun r => (r.id, r.score)) = [("c2", mkRat 4 5), ("c1", mkRat 3 5)] ∧
      (searchSimilarVectors c1sim c1db [1] 8 (mkRat 1 2)).map (fun r => r.id) = ["c1"] ∧
      ¬ mkRat 4 5 < mkRat 3 5 := by
  refine ⟨?_, ?_, ?_⟩ <;> decide

/-- Witness for C1 at a concrete store: the adjacent chunk of `c1` carries the
fixed score 0.8. -/
theorem C1_expansionScoresFixedAndSorted_witness :
    (⟨"c2", "text two", mkRat 8 10, 2, "f.md", "d1"⟩ : VSResult).score = mkRat 8 10 :=
  (C1_expansionScoresFixedAndSorted c1sim c1db c1edges [1] 8 (mkRat 1 2) 2).1
    ("c1") ⟨"c2", "text two", mkRat 8 10, 2, "f.md", "d1"⟩ (by decide)

/-! ### Claim C5 -/

theorem lookup_none_keys {k : String} :
    ∀ {l : EmbCache}, List.lookup k l = none → ∀ p ∈ l, p.1 ≠ k := by
  intro l
  induction l with
  | nil => intro _ p hp; simp at hp
  | cons a t ih =>
    intro h p hp
    rcases hbeq : (k == a.1) with _ | _
    · rcases List.mem_cons.mp hp with rfl | hp₂
      · exact fun hk => by simp [hk] at hbeq
      · have h₂ : List.lookup k t = none := by
          rcases a with ⟨a₁, a₂⟩
          simpa [List.lookup, hbeq] using h
        exact ih h₂ p hp₂
    · exfalso
      rcases a with ⟨a₁, a₂⟩
      simp [List.lookup, hbeq] at h

theorem eraseP_keeps_other_keys {k : String} {l : EmbCache}
    (h : ∀ p ∈ l, p.1 ≠ k) : l.eraseP (fun p => p.1 == k) = l := by
  induction l with
  | nil => rfl
  | cons a t ih =>
    have ha : (a.1 == k) = false := by
      simpa using h a (List.mem_cons_self a t)
    simp only [List.eraseP_cons, ha, Bool.false_eq_true, if_false, cond_false]
    rw [ih (fun p hp => h p (List.mem_cons_of_mem a hp))]

theorem countKey_setCache_fresh {k : String} {cache : EmbCache}
    (h : List.lookup k cache = none) (now : ℤ) (v : List ℚ) :
    countKey k (setCache now k v cache) = 1 := by
  have hkeys := lookup_none_keys h
  simp only [setCache, countKey, eraseP_keeps_other_keys hkeys]
  rw [List.filter_cons_of_pos (by simp)]
  have : cache.filter (fun p => p.1 == k) = [] := by
    rw [List.filter_eq_nil_iff]
    intro p hp
    simp [hkeys p hp]
  rw [this]
  rfl

/-- Claim C5: on a cache miss with the retry limit at 3, a provider failing on
attempts 1 and 2 and succeeding on attempt 3 makes `embedQuery` return exactly
the provider's vector — the same result and cache as with an
immediately-successful provider — and the cache afterwards holds exactly one
entry for the text's key (not three), written once with the fixed TTL. -/
theorem C5_retryThenSuccess (provider : ℕ → Except String (List ℚ)) (v : List ℚ)
    (e₁ e₂ : String) (now : ℤ) (text : String) (cache : EmbCache)
    (h1 : provider 1 = .error e₁) (h2 : provider 2 = .error e₂)
    (h3 : provider 3 = .ok v)
    (hmiss : List.lookup (generateCacheKey text) cache = none) :
    embedQuery provider 3 now text cache
        = .ok (v, setCache now (generateCacheKey text) v cache, 3) ∧
      embedQuery (fun _ => Except.ok v) 3 now text cache
        = .ok (v, setCache now (generateCacheKey text) v cache, 1) ∧
      countKey (generateCacheKey text) (setCache now (generateCacheKey text) v cache) = 1 := by
  have hg : getFromCache now (generateCacheKey text) cache = (none, cache) := by
    simp [getFromCache, hmiss]
  have hretry : embedWithRetry provider 3 1 = .ok (v, 3) := by
    rw [embedWithRetry, h1]
    norm_num
    rw [embedWithRetry, h2]
    norm_num
    rw [embedWithRetry, h3]
  have hfast : embedWithRetry (fun _ => Except.ok v) 3 1 = .ok (v, 1) := by
    rw [embedWithRetry]
  refine ⟨?_, ?_, countKey_setCache_fresh hmiss now v⟩
  · simp only [embedQuery, hg, hretry]
  · simp only [embedQuery, hg, hfast]

/-- Witness for C5: a concrete provider failing twice then succeeding. -/
theorem C5_retryThenSuccess_witness :
    embedQuery c5provider 3 0 ("hello") []
        = .ok ([mkRat 1 1], setCache 0 (generateCacheKey ("hello")) [mkRat 1 1] [], 3) ∧
      embedQuery (fun _ => Except.ok [mkRat 1 1]) 3 0 ("hello") []
        = .ok ([mkRat 1 1], setCache 0 (generateCacheKey ("hello")) [mkRat 1 1] [], 1) ∧
      countKey (generateCacheKey ("hello"))
        (setCache 0 (generateCacheKey ("hello")) [mkRat 1 1] []) = 1 :=
  C5_retryThenSuccess c5provider [mkRat 1 1] ("boom") ("boom") 0 ("hello") []
    rfl rfl rfl rfl

/-! ### Claim C10 -/

theorem base64_take_eq : ∀ (n : ℕ) (l r r' : List ℕ), l.length = 3 * n →
    (base64Encode (l ++ r)).take (4 * n) = (base64Encode (l ++ r')).take (4 * n) := by
  intro n
  induction n with
  | zero => intro l r r' _; simp
  | succ m ih =>
    intro l r r' hl
    match l with
    | [] => simp at hl
    | [b₁] => simp at hl; omega
    | [b₁, b₂] => simp at hl; omega
    | b₁ :: b₂ :: b₃ :: l' =>
      have hl' : l'.length = 3 * m := by
        simp only [List.length_cons] at hl
        omega
      have e1 : base64Encode ((b₁ :: b₂ :: b₃ :: l') ++ r)
          = b64Char (b₁ / 4) :: b64Char (b₁ % 4 * 16 + b₂ / 16) ::
            b64Char (b₂ % 16 * 4 + b₃ / 64) :: b64Char (b₃ % 64) :: base64Encode (l' ++ r) := rfl
      have e2 : base64Encode ((b₁ :: b₂ :: b₃ :: l') ++ r')
          = b64Char (b₁ / 4) :: b64Char (b₁ % 4 * 16 + b₂ / 16) ::
            b64Char (b₂ % 16 * 4 + b₃ / 64) :: b64Char (b₃ % 64) :: base64Encode (l' ++ r') := rfl
      rw [e1, e2, show 4 * (m + 1) = 4 * m + 1 + 1 + 1 + 1 from by ring]
      simp only [List.take_succ_cons]
      rw [ih l' r r' hl']

theorem generateCacheKey_collision (t₁ t₂ : String)
    (hlen : 24 ≤ (textBytes t₁).length)
    (hpre : (textBytes t₁).take 24 = (textBytes t₂).take 24) :
    generateCacheKey t₁ = generateCacheKey t₂ := by
  have h24 : ((textBytes t₁).take 24).length = 24 := by
    rw [List.length_take]
    omega
  have key : (base64Encode (textBytes t₁)).take 32 = (base64Encode (textBytes t₂)).take 32 := by
    have h := base64_take_eq 8 ((textBytes t₁).take 24)
      ((textBytes t₁).drop 24) ((textBytes t₂).drop 24) (by rw [h24])
    rw [List.take_append_drop 24 (textBytes t₁), hpre,
      List.take_append_drop 24 (textBytes t₂)] at h
    norm_num at h
    exact h
  unfold generateCacheKey
  rw [key]

/-- Claim C10: the cache key is not injective — any two texts agreeing on
their first 24 bytes share the 32-character base64 prefix and hence the cache
key, so once the first text's vector is cached, `embedQuery` on the second
distinct text answers with the first text's vector without calling the
provider (zero provider invocations). -/
theorem C10_cacheKeyCollision (t₁ t₂ : String)
    (provider₁ provider₂ : ℕ → Except String (List ℚ)) (v : List ℚ) (now nowLater : ℤ)
    (_hne : t₁ ≠ t₂)
    (hlen : 24 ≤ (textBytes t₁).length)
    (hpre : (textBytes t₁).take 24 = (textBytes t₂).take 24)
    (h1 : provider₁ 1 = .ok v)
    (hfresh : nowLater - now < cacheTTLms) :
    generateCacheKey t₁ = generateCacheKey t₂ ∧
      embedQuery provider₁ 3 now t₁ []
        = .ok (v, [(generateCacheKey t₁, ⟨v, now, cacheTTLms⟩)], 1) ∧
      embedQuery provider₂ 3 nowLater t₂ [(generateCacheKey t₁, ⟨v, now, cacheTTLms⟩)]
        = .ok (v, [(generateCacheKey t₁, ⟨v, now, cacheTTLms⟩)], 0) := by
  have hk := generateCacheKey_collision t₁ t₂ hlen hpre
  have hw : embedWithRetry provider₁ 3 1 = .ok (v, 1) := by
    rw [embedWithRetry, h1]
  refine ⟨hk, ?_, ?_⟩
  · simp only [embedQuery, getFromCache, List.lookup, hw, setCache, List.eraseP]
  · simp only [embedQuery, getFromCache, ← hk, List.lookup, beq_self_eq_true]
    rw [if_pos hfresh]

/-- Witness for C10: two distinct 25-byte texts sharing their first 24 bytes. -/
theorem C10_cacheKeyCollision_witness :
    generateCacheKey ("aaaaaaaaaaaaaaaaaaaaaaaaX")
        = generateCacheKey ("aaaaaaaaaaaaaaaaaaaaaaaaY") ∧
      embedQuery (fun _ => Except.ok [mkRat 1 1]) 3 0 ("aaaaaaaaaaaaaaaaaaaaaaaaX") []
        = .ok ([mkRat 1 1],
            [(generateCacheKey ("aaaaaaaaaaaaaaaaaaaaaaaaX"), ⟨[mkRat 1 1], 0, cacheTTLms⟩)], 1) ∧
      embedQuery (fun _ => Except.error ("never called")) 3 1 ("aaaaaaaaaaaaaaaaaaaaaaaaY")
          [(generateCacheKey ("aaaaaaaaaaaaaaaaaaaaaaaaX"), ⟨[mkRat 1 1], 0, cacheTTLms⟩)]
        = .ok ([mkRat 1 1],
            [(generateCacheKey ("aaaaaaaaaaaaaaaaaaaaaaaaX"), ⟨[mkRat 1 1], 0, cacheTTLms⟩)], 0) :=
  C10_cacheKeyCollision ("aaaaaaaaaaaaaaaaaaaaaaaaX") ("aaaaaaaaaaaaaaaaaaaaaaaaY")
    (fun _ => Except.ok [mkRat 1 1]) (fun _ => Except.error ("never called"))
    [mkRat 1 1] 0 1 (by decide) (by decide) (by decide) rfl (by decide)

/-! ### Claim C6 -/

theorem lookup_eraseP_ne {k key : String} (h : k ≠ key) :
    ∀ l : EmbCache, List.lookup k (l.eraseP (fun p => p.1 == key)) = List.lookup k l := by
  intro l
  induction l with
  | nil => rfl
  | cons a t ih =>
    rcases a with ⟨a₁, a₂⟩
    rcases hbeq : (a₁ == key) with _ | _
    · simp only [List.eraseP_cons, hbeq, cond_false, List.lookup]
      rcases hke : (k == a₁) with _ | _
      · simpa [List.lookup, hke] using ih
      · simp [List.lookup, hke]
    · have ha : a₁ = key := by simpa using hbeq
      simp only [List.eraseP_cons, hbeq, cond_true, List.lookup]
      have : (k == a₁) = false := by simp [ha, h]
      simp [List.lookup, this]

theorem lookup_none_of_not_mem_keys {k : String} :
    ∀ {l : EmbCache}, k ∉ l.map Prod.fst → List.lookup k l = none := by
  intro l
  induction l with
  | nil => intro _; rfl
  | cons a t ih =>
    intro h
    rcases a with ⟨a₁, a₂⟩
    simp only [List.map_cons, List.mem_cons, not_or] at h
    have : (k == a₁) = false := by simp [h.1]
    simp [List.lookup, this, ih h.2]

theorem lookup_eraseP_self {key : String} :
    ∀ {l : EmbCache}, (l.map Prod.fst).Nodup →
      List.lookup key (l.eraseP (fun p => p.1 == key)) = none := by
  intro l
  induction l with
  | nil => intro _; rfl
  | cons a t ih =>
    intro hnd
    rcases a with ⟨a₁, a₂⟩
    rw [List.map_cons, List.nodup_cons] at hnd
    rcases hbeq : (a₁ == key) with _ | _
    · simp only [List.eraseP_cons, hbeq, cond_false, List.lookup]
      have : (key == a₁) = false := by
        rcases eq_or_ne key a₁ with he | hne₂
        · subst he; simp at hbeq
        · simp [hne₂]
      simp [this, ih hnd.2]
    · have ha : a₁ = key := by simpa using hbeq
      simp only [List.eraseP_cons, hbeq, cond_true]
      exact lookup_none_of_not_mem_keys (ha ▸ hnd.1)

theorem keys_eraseP_nodup {l : EmbCache} {p : String × CacheEntry → Bool}
    (hnd : (l.map Prod.fst).Nodup) : ((l.eraseP p).map Prod.fst).Nodup :=
  ((List.eraseP_sublist l).map Prod.fst).nodup hnd

theorem getFromCache_spec (now : ℤ) (key : String) (cache : EmbCache)
    (hnd : (cache.map Prod.fst).Nodup) :
    (getFromCache now key cache).1 = validLookup now key cache ∧
      (∀ k, validLookup now k (getFromCache now key cache).2 = validLookup now k cache) ∧
      ((getFromCache now key cache).2.map Prod.fst).Nodup := by
  unfold getFromCache validLookup
  rcases hl : List.lookup key cache with _ | e
  · exact ⟨rfl, fun _ => rfl, hnd⟩
  · dsimp only
    split_ifs with hfresh
    · exact ⟨rfl, fun _ => rfl, hnd⟩
    · refine ⟨rfl, fun k => ?_, keys_eraseP_nodup hnd⟩
      dsimp only
      by_cases hk : k = key
      · subst hk
        rw [lookup_eraseP_self hnd, hl]
        dsimp only
        exact (if_neg hfresh).symm
      · rw [lookup_eraseP_ne hk]

theorem partitionPass_spec (now : ℤ) :
    ∀ (texts : List String) (cache : EmbCache), (cache.map Prod.fst).Nodup →
      (partitionPass now texts cache).1
          = texts.map (fun t => (t, validLookup now (generateCacheKey t) cache)) ∧
        (∀ k, validLookup now k (partitionPass now texts cache).2
          = validLookup now k cache) ∧
        (((partitionPass now texts cache).2.map Prod.fst).Nodup) := by
  intro texts
  induction texts with
  | nil => intro cache hnd; exact ⟨rfl, fun _ => rfl, hnd⟩
  | cons t ts ih =>
    intro cache hnd
    obtain ⟨hg1, hg2, hg3⟩ := getFromCache_spec now (generateCacheKey t) cache hnd
    obtain ⟨hp1, hp2, hp3⟩ := ih (getFromCache now (generateCacheKey t) cache).2 hg3
    simp only [partitionPass]
    refine ⟨?_, fun k => (hp2 k).trans (hg2 k), hp3⟩
    rw [hg1, List.map_cons, hp1]
    congr 1
    exact List.map_congr_left (fun u _ => by rw [hg2 (generateCacheKey u)])

theorem validLookup_setCache_self (now tstamp : ℤ) (key : String) (emb : List ℚ)
    (cache : EmbCache) (hfresh : now - tstamp < cacheTTLms) :
    validLookup now key (setCache tstamp key emb cache) = some emb := by
  simp only [validLookup, setCache, List.lookup, beq_self_eq_true]
  rw [if_pos hfresh]

theorem validLookup_setCache_ne (now tstamp : ℤ) {k key : String} (h : k ≠ key)
    (emb : List ℚ) (cache : EmbCache) :
    validLookup now k (setCache tstamp key emb cache) = validLookup now k cache := by
  simp only [validLookup, setCache, List.lookup]
  have : (k == key) = false := by simp [h]
  rw [this]
  rw [lookup_eraseP_ne h]

theorem validLookup_foldl_setCache (f : String → List ℚ) (now : ℤ) :
    ∀ (ts : List String) (c : EmbCache) (k : String),
      (validLookup now k
          (ts.foldl (fun c t => setCache now (generateCacheKey t) (f t) c) c)
            = validLookup now k c ∧
          ∀ t ∈ ts, generateCacheKey t ≠ k) ∨
        (∃ t ∈ ts, generateCacheKey t = k ∧
          validLookup now k
            (ts.foldl (fun c t => setCache now (generateCacheKey t) (f t) c) c)
              = some (f t)) := by
  intro ts
  induction ts with
  | nil => intro c k; exact Or.inl ⟨rfl, by simp⟩
  | cons u ts ih =>
    intro c k
    rw [List.foldl_cons]
    rcases ih (setCache now (generateCacheKey u) (f u) c) k with ⟨heq, hno⟩ | ⟨t, ht, hkey, hval⟩
    · by_cases hk : generateCacheKey u = k
      · refine Or.inr ⟨u, List.mem_cons_self u ts, hk, ?_⟩
        rw [heq, ← hk]
        exact validLookup_setCache_self now now _ (f u) c (by norm_num [cacheTTLms])
      · refine Or.inl ⟨?_, ?_⟩
        · rw [heq, validLookup_setCache_ne now now (fun he => hk he.symm) (f u) c]
        · intro t ht
          rcases List.mem_cons.mp ht with rfl | ht₂
          · exact hk
          · exact hno t ht₂
    · exact Or.inr ⟨t, List.mem_cons_of_mem u ht, hkey, hval⟩

/-- Claim C6 (amended): for caches with unique keys (a JS object) and inputs
on which the cache key separates the texts, `embedDocuments` is order- and
length-preserving: position `i` of the output holds the fresh cached vector
under `texts[i]`'s key, and the provider's vector for `texts[i]` otherwise; at
most one batch provider call is issued, carrying exactly the uncached texts in
input order; and every uncached text's vector is written back into the cache.
The key-injectivity proviso is necessary: the cache key keeps only the first
24 bytes of the text (claim C10), and a text whose key collides with a
different cached text receives that other text's vector and is left out of the
provider batch — see the counterexample. -/
theorem C6_embedDocumentsSpec (f : String → List ℚ) (now : ℤ) (texts : List String)
    (cache : EmbCache) (hnd : (cache.map Prod.fst).Nodup)
    (hinj : ∀ t₁ ∈ texts, ∀ t₂ ∈ texts,
      generateCacheKey t₁ = generateCacheKey t₂ → t₁ = t₂) :
    (embedDocuments f now texts cache).1
        = texts.map (fun t => (validLookup now (generateCacheKey t) cache).getD (f t)) ∧
      (embedDocuments f now texts cache).1.length = texts.length ∧
      (embedDocuments f now texts cache).2.2
        = (if (texts.filter
              (fun t => (validLookup now (generateCacheKey t) cache).isNone)).isEmpty
           then []
           else [texts.filter
              (fun t => (validLookup now (generateCacheKey t) cache).isNone)]) ∧
      ∀ t ∈ texts, validLookup now (generateCacheKey t) cache = none →
        validLookup now (generateCacheKey t) (embedDocuments f now texts cache).2.1
          = some (f t) := by
  obtain ⟨hp1, hp2, _⟩ := partitionPass_spec now texts cache hnd
  have huncached :
      ((partitionPass now texts cache).1.filter (fun p => p.2.isNone)).map (fun p => p.1)
        = texts.filter (fun t => (validLookup now (generateCacheKey t) cache).isNone) := by
    rw [hp1, List.filter_map, List.map_map]
    have hcomp : ((fun p : String × Option (List ℚ) => p.1) ∘
        (fun t : String => (t, validLookup now (generateCacheKey t) cache))) = id := rfl
    rw [hcomp, List.map_id]
    rfl
  have hresults :
      (embedDocuments f now texts cache).1
        = texts.map (fun t => (validLookup now (generateCacheKey t) cache).getD (f t)) := by
    simp only [embedDocuments]
    rw [hp1, List.map_map]
    refine List.map_congr_left (fun t _ => ?_)
    simp only [Function.comp]
    rcases validLookup now (generateCacheKey t) cache with _ | v <;> rfl
  refine ⟨hresults, by rw [hresults, List.length_map], ?_, ?_⟩
  · simp only [embedDocuments]
    rw [huncached]
  · intro t ht hmiss
    simp only [embedDocuments]
    rw [huncached]
    have htu : t ∈ texts.filter
        (fun u => (validLookup now (generateCacheKey u) cache).isNone) :=
      List.mem_filter.mpr ⟨ht, by rw [hmiss]; rfl⟩
    rcases validLookup_foldl_setCache f now
        (texts.filter (fun u => (validLookup now (generateCacheKey u) cache).isNone))
        (partitionPass now texts cache).2 (generateCacheKey t) with ⟨_, hno⟩ | ⟨u, hu, hkey, hval⟩
    · exact absurd rfl (hno t htu)
    · have hut : u = t :=
        hinj u (List.mem_of_mem_filter hu) t ht hkey
      rw [hval, hut]

/-- Witness for C6: both texts are uncached, so a single batch call carries
both, and the cache afterwards answers each text's key. -/
theorem C6_embedDocumentsSpec_witness :
    (embedDocuments c6f 0 ["x", "y"] []).2.2 = [["x", "y"]] ∧
      validLookup 0 (generateCacheKey ("x")) (embedDocuments c6f 0 ["x", "y"] []).2.1
        = some [mkRat 2 1] := by
  have h := C6_embedDocumentsSpec c6f 0 ["x", "y"] [] (by decide) (by decide)
  exact ⟨h.2.2.1.trans (by decide), h.2.2.2 ("x") (by decide) (by decide)⟩

/-- Counterexample to claim C6 as stated: after embedding the 25-byte text
ending in `X` (vector `[1]`), a call on the distinct text ending in `Y` —
whose key collides, since the two agree on their first 24 bytes — returns the
`X` text's vector `[1]` instead of the provider's vector `[2]` for the `Y`
text, and issues no provider call at all (the `Y` text is wrongly treated as
cached), so position `i` does not hold the vector for `texts[i]`. -/
theorem C6_counterexample :
    (embedDocuments c6g 0 [("aaaaaaaaaaaaaaaaaaaaaaaaY")]
        (embedDocuments c6g 0 [("aaaaaaaaaaaaaaaaaaaaaaaaX")] []).2.1).1
      = [[mkRat 1 1]] ∧
      c6g ("aaaaaaaaaaaaaaaaaaaaaaaaY") = [mkRat 2 1] ∧
      (embedDocuments c6g 0 [("aaaaaaaaaaaaaaaaaaaaaaaaY")]
          (embedDocuments c6g 0 [("aaaaaaaaaaaaaaaaaaaaaaaaX")] []).2.1).2.2 = [] ∧
      ("aaaaaaaaaaaaaaaaaaaaaaaaX" : String) ≠ "aaaaaaaaaaaaaaaaaaaaaaaaY" := by
  refine ⟨?_, ?_, ?_, ?_⟩ <;> decide

/-! ### Claim C3 -/

theorem nextRelsAux_eq_consPairs (hash : String → String) :
    ∀ (l : List String) (x : String),
      nextRelsAux hash x l = consPairs (x :: l.map hash) := by
  intro l
  induction l with
  | nil => intro x; rfl
  | cons u l ih =>
    intro x
    simp only [nextRelsAux, List.map_cons]
    rw [ih (hash u)]
    rfl

theorem consPairs_map_fst : ∀ l : List String, (consPairs l).map Prod.fst = l.dropLast
  | [] => rfl
  | [_] => rfl
  | a :: b :: t => by
    have ih := consPairs_map_fst (b :: t)
    simp only [consPairs, List.tail_cons, List.zip_cons_cons, List.map_cons] at ih ⊢
    rw [ih]
    rfl

theorem consPairs_nodup {l : List String} (h : l.Nodup) : (consPairs l).Nodup := by
  have h₁ : ((consPairs l).map Prod.fst).Nodup := by
    rw [consPairs_map_fst]
    exact (List.dropLast_sublist l).nodup h
  exact h₁.of_map

theorem find?_first {α : Type} (p : α → Bool) :
    ∀ (pre : List α) (a : α) (post : List α),
      (∀ b ∈ pre, p b = false) → p a = true →
      (pre ++ a :: post).find? p = some a := by
  intro pre
  induction pre with
  | nil => intro a post _ ha; simp [List.find?, ha]
  | cons b pre ih =>
    intro a post hpre ha
    have hb : p b = false := hpre b (List.mem_cons_self b pre)
    simp only [List.cons_append, List.find?, hb]
    exact ih a post (fun c hc => hpre c (List.mem_cons_of_mem b hc)) ha

theorem chainVisits_consPairs :
    ∀ (xs : List String) (x : String) (pre : List (String × String)),
      (∀ e ∈ pre, e.1 ∉ x :: xs) → (x :: xs).Nodup →
      chainVisits (pre ++ consPairs (x :: xs)) x (xs.length + 1) = some (x :: xs) := by
  intro xs
  induction xs with
  | nil =>
    intro x pre hpre _
    have hnone : (pre ++ consPairs [x]).find? (fun e => e.1 == x) = none := by
      rw [List.find?_eq_none]
      intro e he
      have hnil : consPairs [x] = [] := rfl
      rw [hnil, List.append_nil] at he
      have he₂ : e ∈ pre := he
      simp only [beq_iff_eq]
      intro hx
      exact hpre e he₂ (by simp [hx])
    simp [chainVisits, hnone]
  | cons u xs ih =>
    intro x pre hpre hnd
    have hcp : consPairs (x :: u :: xs) = (x, u) :: consPairs (u :: xs) := rfl
    have hfind : (pre ++ consPairs (x :: u :: xs)).find? (fun e => e.1 == x)
        = some (x, u) := by
      rw [hcp]
      exact find?_first _ pre (x, u) (consPairs (u :: xs))
        (fun b hb => by
          have hb₁ : b.1 ≠ x := fun hbx => hpre b hb (by simp [hbx])
          simp [hb₁])
        (by simp)
    have hrec : chainVisits (pre ++ consPairs (x :: u :: xs)) u (xs.length + 1)
        = some (u :: xs) := by
      have hassoc : pre ++ consPairs (x :: u :: xs)
          = (pre ++ [(x, u)]) ++ consPairs (u :: xs) := by
        rw [hcp, List.append_assoc]
        rfl
      rw [hassoc]
      refine ih u (pre ++ [(x, u)]) ?_ (List.Nodup.of_cons hnd)
      intro e he
      rcases List.mem_append.mp he with he₁ | he₂
      · exact fun hmem => hpre e he₁ (List.mem_cons_of_mem x hmem)
      · have : e = (x, u) := by simpa using he₂
        subst this
        exact (List.nodup_cons.mp hnd).1
    show chainVisits (pre ++ consPairs (x :: u :: xs)) x (xs.length + 1 + 1)
      = some (x :: u :: xs)
    rw [chainVisits, hfind]
    dsimp only
    rw [hrec]
    rfl

/-- Claim C3 (amended): for a document whose chunks have pairwise-distinct
content hashes (the chunk ids are content-addressed), exactly one FIRST_CHUNK
edge is created and following NEXT_CHUNK edges from its target visits exactly
the N chunks, one per position in position order, terminating without a
cycle.  When two chunks of one document share their text (hence their hash)
this fails — see the counterexample. -/
theorem C3_chainIntegrityDistinct (hash : String → String) (fileName : String)
    (texts : List String) (hnd : (texts.map hash).Nodup) :
    chainIntegrity hash fileName texts := by
  match texts with
  | [] => trivial
  | t :: rest =>
    have hmap : (t :: rest).map hash = hash t :: rest.map hash := rfl
    rw [hmap] at hnd
    constructor
    · rfl
    · refine ⟨(rest.map hash).length + 1, hash t :: rest.map hash, ?_, rfl, hnd⟩
      have hedges : (createRelationBetweenChunks hash fileName (t :: rest)).2
          = consPairs (hash t :: rest.map hash) := by
        simp only [createRelationBetweenChunks]
        exact nextRelsAux_eq_consPairs hash rest (hash t)
      rw [hedges, List.dedup_eq_self.mpr (consPairs_nodup hnd)]
      exact chainVisits_consPairs (rest.map hash) (hash t) [] (by simp) hnd

/-- Counterexample to claim C3 as stated: a document with two chunks of
identical text collapses to a single content-addressed node with a NEXT_CHUNK
self-loop, so the chain cannot visit two distinct chunks and the traversal
never terminates. -/
theorem C3_counterexample :
    ¬ chainIntegrity id ("doc.md") ["dup", "dup"] ∧
      ¬ ∃ fuel visited, chainVisits [("dup", "dup")] ("dup") fuel = some visited := by
  have hloop : ∀ fuel, chainVisits [("dup", "dup")] ("dup") fuel = none := by
    intro fuel
    induction fuel with
    | zero => rfl
    | succ n ih => simp [chainVisits, List.find?, ih]
  constructor
  · intro h
    obtain ⟨-, fuel, visited, -, hv, hnodup⟩ := h
    rw [hv] at hnodup
    exact absurd hnodup (by decide)
  · rintro ⟨fuel, visited, h⟩
    rw [hloop fuel] at h
    exact Option.noConfusion h

/-- Witness for C3 at a two-chunk document with distinct texts. -/
theorem C3_chainIntegrityDistinct_witness :
    chainIntegrity id ("f.md") ["alpha", "beta"] :=
  C3_chainIntegrityDistinct id ("f.md") ["alpha", "beta"] (by decide)

/-! ### Claim C8 -/

theorem jsTrim_length_le (l : List Char) : (jsTrim l).length ≤ l.length :=
  calc (jsTrim l).length
      = ((l.dropWhile Char.isWhitespace).reverse.dropWhile Char.isWhitespace).length := by
        simp [jsTrim]
    _ ≤ (l.dropWhile Char.isWhitespace).reverse.length :=
        (List.dropWhile_sublist _).length_le
    _ = (l.dropWhile Char.isWhitespace).length := by simp
    _ ≤ l.length := (List.dropWhile_sublist _).length_le

theorem csEnd_sub_le (o : ChunkOpts) (text : List Char) (s : ℕ) :
    csEnd o text s - s ≤ o.chunkSize + 100 := by
  simp only [csEnd]
  have hmin := min_le_left (s + o.chunkSize) text.length
  split_ifs with h₁ h₂ <;> omega

theorem csChunk_length_le (o : ChunkOpts) (text : List Char) (s : ℕ) :
    (jsTrim ((text.drop s).take (csEnd o text s - s))).length ≤ o.chunkSize + 100 := by
  have h₁ := jsTrim_length_le ((text.drop s).take (csEnd o text s - s))
  have h₂ : ((text.drop s).take (csEnd o text s - s)).length ≤ csEnd o text s - s := by
    rw [List.length_take]
    exact min_le_left _ _
  have h₃ := csEnd_sub_le o text s
  omega

theorem csLoop_bound (o : ChunkOpts) (text : List Char) :
    ∀ (fuel startPos : ℕ) (chunks out : List (List Char)),
      (∀ c ∈ chunks, c.length ≤ o.chunkSize + 100) →
      csLoop o text fuel startPos chunks = some out →
      ∀ c ∈ out, c.length ≤ o.chunkSize + 100 := by
  intro fuel
  induction fuel with
  | zero =>
    intro s chunks out _ h
    exact absurd h (by simp [csLoop])
  | succ n ih =>
    intro s chunks out hacc h
    simp only [csLoop] at h
    split_ifs at h with hs hend hemp hemp₂
    · cases h
      exact hacc
    · cases h
      intro c hc
      rcases List.mem_append.mp hc with hc₁ | hc₂
      · exact hacc c hc₁
      · rw [List.mem_singleton.mp hc₂]
        exact csChunk_length_le o text s
    · exact ih _ _ _ hacc h
    · refine ih _ _ _ ?_ h
      intro c hc
      rcases List.mem_append.mp hc with hc₁ | hc₂
      · exact hacc c hc₁
      · rw [List.mem_singleton.mp hc₂]
        exact csChunk_length_le o text s
    · cases h
      exact hacc

theorem chunkSingleSegment_bound (o : ChunkOpts) (text : List Char) (fuel : ℕ)
    (out : List (List Char)) (h : chunkSingleSegment o text fuel = some out) :
    ∀ c ∈ out, c.length ≤ o.chunkSize + 100 := by
  simp only [chunkSingleSegment] at h
  split_ifs at h with h₁ h₂
  · cases h
    intro c hc
    simp at hc
  · cases h
    intro c hc
    rw [List.mem_singleton.mp hc]
    have := jsTrim_length_le text
    omega
  · exact csLoop_bound o text fuel 0 [] out (by simp) h

theorem mapM_option_mem {α β : Type} (g : α → Option β) :
    ∀ (l : List α) (ys : List β), l.mapM g = some ys → ∀ y ∈ ys, ∃ x ∈ l, g x = some y := by
  intro l
  induction l with
  | nil =>
    intro ys h y hy
    simp only [List.mapM_nil, pure, Option.some.injEq] at h
    subst h
    simp at hy
  | cons a t ih =>
    intro ys h y hy
    rw [List.mapM_cons] at h
    rcases hga : g a with _ | b
    · rw [hga] at h
      simp at h
    · rw [hga] at h
      rcases hmt : t.mapM g with _ | bs
      · rw [hmt] at h
        simp at h
      · rw [hmt] at h
        simp only [Option.bind_some, Option.bind_eq_bind, pure, Option.some.injEq] at h
        have hys : ys = b :: bs := by
          cases h
          rfl
        subst hys
        rcases List.mem_cons.mp hy with rfl | hy₂
        · exact ⟨a, List.mem_cons_self a t, hga⟩
        · obtain ⟨x, hx, hgx⟩ := ih bs hmt y hy₂
          exact ⟨x, List.mem_cons_of_mem a hx, hgx⟩

/-- Claim C8: every chunk produced by `chunkText` — through the short-text
path, the direct path, or the sliding-window loop whose right edge is extended
to a sentence end only within the 100-character slack — has length at most
`chunkSize + 100`. -/
theorem C8_chunkLengthBound (o : ChunkOpts) (l : List Char) (fuel : ℕ)
    (out : List (List Char)) (h : chunkText o l fuel = some out) :
    ∀ c ∈ out, c.length ≤ o.chunkSize + 100 := by
  simp only [chunkText] at h
  split_ifs at h with h₁ h₂
  · cases h
    intro c hc
    simp at hc
  · cases h
    intro c hc
    rw [List.mem_singleton.mp hc]
    have h₃ := jsTrim_length_le l
    omega
  · rcases hp : preprocessLargeText o l fuel with _ | segs
    · rw [hp] at h
      simp at h
    · rw [hp] at h
      obtain ⟨css, hcss, hflat⟩ := Option.map_eq_some'.mp h
      subst hflat
      intro c hc
      obtain ⟨cl, hcl, hcmem⟩ := List.mem_flatten.mp hc
      obtain ⟨s, _, hseg⟩ := mapM_option_mem _ segs css hcss cl hcl
      exact chunkSingleSegment_bound o s fuel cl hseg c hcmem

/-- Witness for C8: the first chunk produced for a concrete text under a
5-character window stays within the 105-character bound. -/
theorem C8_chunkLengthBound_witness :
    (("ab. cd.").data).length ≤ c8Opts.chunkSize + 100 :=
  C8_chunkLengthBound c8Opts (("ab. cd. ef.").data) 20
    [("ab. cd.").data, ("cd. ef.").data] (by decide) (("ab. cd.").data) (by decide)

/-! ### Claim C9 -/

theorem csEnd_ge (o : ChunkOpts) (text : List Char) (s : ℕ)
    (hlt : csEnd o text s < text.length) : s + o.chunkSize ≤ csEnd o text s := by
  simp only [csEnd] at hlt ⊢
  have hmindef : min (s + o.chunkSize) text.length = s + o.chunkSize ∨
      min (s + o.chunkSize) text.length = text.length := min_choice _ _
  split_ifs at hlt ⊢ with h₁ h₂
  · obtain ⟨h₁a, -⟩ := h₁
    have hmin : min (s + o.chunkSize) text.length = s + o.chunkSize := by omega
    rw [hmin] at hlt ⊢
    simp only [findNextSentenceEnd] at hlt ⊢
    rcases (text.drop (s + o.chunkSize)).findIdx? (isSentenceEnding o) with _ | j
    · dsimp only at hlt ⊢
      omega
    · dsimp only at hlt ⊢
      omega
  · obtain ⟨h₁a, -⟩ := h₁
    omega
  · omega

theorem csNext_gt (o : ChunkOpts) (text : List Char) (s endPos : ℕ)
    (hov : o.overlap < o.chunkSize) (hge : s + o.chunkSize ≤ endPos) :
    s < csNext o text s endPos := by
  simp only [csNext]
  have hmax := le_max_right s (endPos - o.overlap)
  split_ifs with h₁ h₂ h₃ <;> omega

theorem csLoop_isSome (o : ChunkOpts) (hov : o.overlap < o.chunkSize) (text : List Char) :
    ∀ (fuel s : ℕ) (chunks : List (List Char)),
      text.length - s < fuel → (csLoop o text fuel s chunks).isSome = true := by
  intro fuel
  induction fuel with
  | zero =>
    intro s chunks h
    exact absurd h (Nat.not_lt_zero _)
  | succ n ih =>
    intro s chunks h
    by_cases hs : s < text.length
    · by_cases hend : text.length ≤ csEnd o text s
      · simp [csLoop, hs, hend]
      · have h₁ : csEnd o text s < text.length := by omega
        have h₂ := csEnd_ge o text s h₁
        have h₃ := csNext_gt o text s (csEnd o text s) hov h₂
        simp only [csLoop, hs, hend, if_true, if_false]
        exact ih (csNext o text s (csEnd o text s)) _ (by omega)
    · simp [csLoop, hs]

/-- Claim C9 (amended): the `chunkSingleSegment` window loop terminates for
every input text whenever `overlap < chunkSize`, because every iteration then
strictly advances the start position (`text.length + 1` iterations always
suffice).  The loop-safety guard in the code only caps the start at the
window's end when it would overshoot; it never forces progress, and with
`overlap ≥ chunkSize` the loop recomputes the same window forever — see the
counterexample. -/
theorem C9_terminationWhenOverlapSmall (o : ChunkOpts) (hov : o.overlap < o.chunkSize)
    (text : List Char) : (chunkSingleSegment o text (text.length + 1)).isSome = true := by
  simp only [chunkSingleSegment]
  split_ifs with h₁ h₂
  · rfl
  · rfl
  · exact csLoop_isSome o hov text (text.length + 1) 0 [] (by omega)

theorem csLoop_stuck (o : ChunkOpts) (text : List Char) (s : ℕ)
    (hs : s < text.length) (hend : ¬ text.length ≤ csEnd o text s)
    (hnext : csNext o text s (csEnd o text s) = s) :
    ∀ (fuel : ℕ) (chunks : List (List Char)), csLoop o text fuel s chunks = none := by
  intro fuel
  induction fuel with
  | zero => intro chunks; rfl
  | succ n ih =>
    intro chunks
    simp only [csLoop, hs, hend, if_true, if_false]
    rw [hnext]
    exact ih _

/-- Counterexample to claim C9 as stated: with `chunkSize = 2` and
`overlap = 5` the next start equals the current start on the text `abcdef`,
so the loop of `chunkSingleSegment` never terminates — the claim fails for
option settings with `overlap ≥ chunkSize`. -/
theorem C9_counterexample : ¬ chunkLoopTerminates c9Opts (("abcdef").data) := by
  rintro ⟨fuel, out, h⟩
  simp only [chunkSingleSegment] at h
  rw [if_neg (by decide), if_neg (by decide)] at h
  rw [csLoop_stuck c9Opts (("abcdef").data) 0 (by decide) (by decide) (by decide) fuel []] at h
  exact Option.noConfusion h

/-- Witness for C9: with overlap 2 below chunk size 5 the loop returns within
`length + 1` iterations on a concrete text. -/
theorem C9_terminationWhenOverlapSmall_witness :
    (chunkSingleSegment c8Opts (("ab. cd. ef.").data)
      ((("ab. cd. ef.").data).length + 1)).isSome = true :=
  C9_terminationWhenOverlapSmall c8Opts (by decide) (("ab. cd. ef.").data)
